import Mathlib

/-!
Verification of the search-strategy core in `include/rmi/util/search.hpp`.

The sequence is modelled as a total function `mem : Int → Int` (the contents of
memory at each position, matching C++ iterators/pointers into a contiguous
array), and a range is a pair of positions `first ≤ last`.  Elements are `Int`
(the element type instantiating the C++ templates; all inputs considered fit in
a machine word, so wrap-around never occurs and plain integers are faithful).
Every loop of the source is embedded as a structurally recursive function on a
Nat counter that is the loop's standard variant (the remaining distance for the
pointer-walking loops, the remaining count for `std::lower_bound`, the current
step for the branchless descent); the counter chosen at each call site provably
dominates the number of iterations, so the embedding computes exactly the
source's iteration sequence.
-/

/-- The module-level sentinel `intptr_t MINUS_ONE = -1;` of the source (its
initial value; the state-passing embedding below additionally shows no strategy
ever writes it). -/
def MINUS_ONE : Int := -1

/-- Loop body of `bsr`: `while (x) { x >>= 1; ++ret; }`.  The fuel is the
current value of `x`, which bounds the number of remaining halvings. -/
def bsrAux : Nat → Nat → Int → Int
  | 0, _, ret => ret
  | fuel + 1, x, ret => if x ≠ 0 then bsrAux fuel (x / 2) (ret + 1) else ret

/-- `inline intptr_t bsr(size_t x)` of the source: `ret = -1`, then halve `x`
until it is zero, incrementing `ret` each time. -/
def bsr (x : Nat) : Int := bsrAux x x (-1)

/-- Models `intptr_t(1) << k`.  A negative shift amount is undefined behaviour
in C++ (it happens in the source only for `bsr(0) = -1`, i.e. an empty
sub-range); it is modelled as `0`, which makes the descent loop exit at once. -/
def shiftOne (k : Int) : Nat := if 0 ≤ k then 2 ^ k.toNat else 0

/-- The element-by-element forward scan
`for (; runner != last; ++runner) if (*runner >= value) return runner; return last;`
shared by `LinearSearch::operator()` (with `!=`) and the right branch of
`ModelBiasedLinearSearch::operator()` (with `<`); on a well-formed range
(`cur ≤ last`) the two loop conditions coincide and the counter `k` is the
remaining distance `last - cur`. -/
def scanLBAux (mem : Int → Int) (value : Int) : Int → Nat → Int
  | cur, 0 => cur
  | cur, k + 1 => if value ≤ mem cur then cur else scanLBAux mem value (cur + 1) k

/-- `LinearSearch::operator()(first, last, pred, value)`: forward scan of
`[first, last)`, the predicted position is ignored. -/
def LinearSearch (mem : Int → Int) (first last _pred value : Int) : Int :=
  scanLBAux mem value first (last - first).toNat

/-- The reference exhaustive scan the spec compares every strategy against:
first position of `[first, last)` whose element is not less than `value`,
or `last` if none. -/
def scanLB (mem : Int → Int) (first last value : Int) : Int :=
  scanLBAux mem value first (last - first).toNat

/-- Left branch of `ModelBiasedLinearSearch::operator()`:
`for (; runner >= first; --runner) if (*runner < value) return ++runner; return first;`.
The counter is `runner - first + 1`, the number of remaining loop tests; when it
is `0` the iterator has moved below `first` and the loop returns `first`. -/
def mblsLeftAux (mem : Int → Int) (value first : Int) : Int → Nat → Int
  | _, 0 => first
  | runner, k + 1 =>
    if mem runner < value then runner + 1 else mblsLeftAux mem value first (runner - 1) k

/-- `ModelBiasedLinearSearch::operator()(first, last, pred, value)`: compare
`*pred` with `value`, then scan right over `[pred, last)` or left from `pred`
down to `first`. -/
def ModelBiasedLinearSearch (mem : Int → Int) (first last pred value : Int) : Int :=
  if mem pred < value then scanLBAux mem value pred (last - pred).toNat
  else mblsLeftAux mem value first pred (pred - first + 1).toNat

/-- `std::lower_bound` (libstdc++): repeatedly halve a count.
`while (len > 0) { half = len/2; if (*(first+half) < value) { first += half+1; len -= half+1; } else len = half; }`.
The fuel dominates `count`, which strictly decreases each iteration. -/
def lowerBoundAux (mem : Int → Int) (value : Int) : Nat → Int → Nat → Int
  | 0, first, _ => first
  | fuel + 1, first, count =>
    if count = 0 then first
    else
      let step := count / 2
      if mem (first + (step : Int)) < value then
        lowerBoundAux mem value fuel (first + (step : Int) + 1) (count - step - 1)
      else lowerBoundAux mem value fuel first step

/-- `std::lower_bound(lo, hi, value)` over the range `[lo, hi)`. -/
def stdLowerBound (mem : Int → Int) (lo hi value : Int) : Int :=
  lowerBoundAux mem value (hi - lo).toNat lo (hi - lo).toNat

/-- `BinarySearch::operator()(first, last, pred, value)`:
`return std::lower_bound(first, last, value);`, the predicted position is ignored. -/
def BinarySearch (mem : Int → Int) (first last _pred value : Int) : Int :=
  stdLowerBound mem first last value

/-- `ModelBiasedBinarySearch::operator()(first, last, pred, value)`:
`if (*pred < value) return std::lower_bound(pred, last, value); else return std::lower_bound(first, pred, value);`. -/
def ModelBiasedBinarySearch (mem : Int → Int) (first last pred value : Int) : Int :=
  if mem pred < value then stdLowerBound mem pred last value
  else stdLowerBound mem first pred value

/-- Doubling loop of `ExponentialSearch::operator()` (and of the right branch of
the model-biased variant):
`while (curr < last and *curr < value) { bound *= 2; prev = curr; curr += bound; }`,
returning the final `(prev, curr)`.  The `and` short-circuits, so `*curr` is
only read after `curr < last` holds; the fuel dominates `last - curr`, which
shrinks by `2 * bound ≥ 2` per iteration. -/
def expLoopAux (mem : Int → Int) (last value : Int) : Nat → Nat → Int → Int → Int × Int
  | 0, _, prev, curr => (prev, curr)
  | fuel + 1, bound, prev, curr =>
    if curr < last then
      if mem curr < value then
        expLoopAux mem last value fuel (bound * 2) curr (curr + ((bound * 2 : Nat) : Int))
      else (prev, curr)
    else (prev, curr)

/-- `ExponentialSearch::operator()(first, last, pred, value)`: early-out when
`*first >= value`; otherwise double from `prev = first`, `curr = first + 1`,
then `return std::lower_bound(prev, std::min(curr + 1, last), value);`. -/
def ExponentialSearch (mem : Int → Int) (first last _pred value : Int) : Int :=
  if value ≤ mem first then first
  else
    let r := expLoopAux mem last value (last - (first + 1)).toNat 1 first (first + 1)
    stdLowerBound mem r.1 (min (r.2 + 1) last) value

/-- Leftward doubling loop of `ModelBiasedExponentialSearch::operator()`:
`while (curr > first and *curr >= value) { bound *= 2; prev = curr; curr -= bound; }`. -/
def expLeftLoopAux (mem : Int → Int) (first value : Int) : Nat → Nat → Int → Int → Int × Int
  | 0, _, prev, curr => (prev, curr)
  | fuel + 1, bound, prev, curr =>
    if first < curr then
      if value ≤ mem curr then
        expLeftLoopAux mem first value fuel (bound * 2) curr (curr - ((bound * 2 : Nat) : Int))
      else (prev, curr)
    else (prev, curr)

/-- `ModelBiasedExponentialSearch::operator()(first, last, pred, value)`: double
rightward from `pred` then `lower_bound(prev, min(curr + 1, last))`, or double
leftward from `pred` then `lower_bound(max(first, curr), prev)`. -/
def ModelBiasedExponentialSearch (mem : Int → Int) (first last pred value : Int) : Int :=
  if mem pred < value then
    let r := expLoopAux mem last value (last - (pred + 1)).toNat 1 pred (pred + 1)
    stdLowerBound mem r.1 (min (r.2 + 1) last) value
  else
    let r := expLeftLoopAux mem first value (pred - first).toNat 1 pred (pred - 1)
    stdLowerBound mem (max first r.2) r.1 value

/-- The 64-bit lane pattern produced by `_mm512_set1_epi32(value)` when the
lanes are then compared with `_mm512_cmplt_epi64_mask`: the value is first
converted to a 32-bit integer (truncation of the two's-complement pattern),
that 32-bit pattern fills every 32-bit lane, and each 64-bit lane therefore
holds two copies of it; the comparison reads the lane as a signed 64-bit
integer. -/
def broadcast32to64 (value : Int) : Int :=
  let w := value.emod 4294967296
  let q := w * 4294967296 + w
  if q < 9223372036854775808 then q else q - 18446744073709551616

/-- `__builtin_ctz(cmp_mask)` for the mask of
`_mm512_cmplt_epi64_mask(vec, values)` over the eight 64-bit lanes loaded at
`base`: index of the lowest lane `j < 8` with `mem (base + j) < bv`, or `none`
when the mask is zero.  (The hardware reads all eight lanes at once; only the
lowest set lane ever influences the result, so the recursion stops at it.) -/
def simdMaskFirstAux (mem : Int → Int) (bv base : Int) : Nat → Nat → Option Nat
  | _, 0 => none
  | j, rem + 1 =>
    if mem (base + (j : Int)) < bv then some j else simdMaskFirstAux mem bv base (j + 1) rem

/-- Block loop shared by the SIMD strategies:
`for (size_t i = 0; i < n; i += 8)` load the eight lanes at `data + i`
(`data` = `base`), and on a non-zero mask return the block offset `i` together
with the lane index given by `__builtin_ctz`. -/
def simdScan (mem : Int → Int) (bv base : Int) (n : Nat) : Nat → Nat → Option (Nat × Nat)
  | 0, _ => none
  | fuel + 1, i =>
    if i < n then
      match simdMaskFirstAux mem bv (base + (i : Int)) 0 8 with
      | some j => some (i, j)
      | none => simdScan mem bv base n fuel (i + 8)
    else none

/-- `LinearSearch_SIMD::operator()(first, last, pred, value)`: `data = &*first`,
`n = distance(first, last)`, sweep blocks of eight 64-bit lanes, and on a
non-zero `cmp_mask` return `first + i + index`; otherwise return `last`. -/
def LinearSearch_SIMD (mem : Int → Int) (first last _pred value : Int) : Int :=
  let n := (last - first).toNat
  match simdScan mem (broadcast32to64 value) first n n 0 with
  | some (i, j) => first + (i : Int) + (j : Int)
  | none => last

/-- `ModelBiasedLinearSearch_SIMD::operator()(first, last, pred, value)`: when
`*pred < value` the loads are based at `runner = pred` with
`n = distance(pred, last)` but the hit is returned as `first + i + index` (as in
the source); otherwise the loads are based at `first` with
`n = distance(first, pred)`, the hit is `first + i + index`, and exhaustion
returns `last` (as in the source). -/
def ModelBiasedLinearSearch_SIMD (mem : Int → Int) (first last pred value : Int) : Int :=
  if mem pred < value then
    let n := (last - pred).toNat
    match simdScan mem (broadcast32to64 value) pred n n 0 with
    | some (i, j) => first + (i : Int) + (j : Int)
    | none => last
  else
    let n := (pred - first).toNat
    match simdScan mem (broadcast32to64 value) first n n 0 with
    | some (i, j) => first + (i : Int) + (j : Int)
    | none => last

/-- Descent loop of `BinarySearch_Branchless::operator()` (and of both branches
of the model-biased variant):
`while (step > 0) { pos = (*(first + step) < value ? pos + step : pos); step >>= 1; }`,
returning the final `pos`.  `step` is non-negative throughout, so `>>= 1` is
division by two; the fuel dominates `step`, which at least halves per
iteration. -/
def bbLoopAux (mem : Int → Int) (first value : Int) : Nat → Int → Nat → Int
  | 0, pos, _ => pos
  | fuel + 1, pos, step =>
    if 0 < step then
      bbLoopAux mem first value fuel
        (if mem (first + (step : Int)) < value then pos + (step : Int) else pos) (step / 2)
    else pos

/-- `BinarySearch_Branchless::operator()(first, last, pred, value)`:
`n = distance(first, last)`, `pos = MINUS_ONE`, `step = 1 << bsr(n)`, run the
descent, `return first + (pos + 1)`. -/
def BinarySearch_Branchless (mem : Int → Int) (first last _pred value : Int) : Int :=
  let n := (last - first).toNat
  first + (bbLoopAux mem first value (shiftOne (bsr n)) MINUS_ONE (shiftOne (bsr n)) + 1)

/-- `ModelBiasedBinarySearch_Branchless::operator()(first, last, pred, value)`:
both branches run the same descent based at `first` — only the length `n`
(`distance(pred, last)` or `distance(first, pred)`) differs. -/
def ModelBiasedBinarySearch_Branchless (mem : Int → Int) (first last pred value : Int) : Int :=
  if mem pred < value then
    let n := (last - pred).toNat
    first + (bbLoopAux mem first value (shiftOne (bsr n)) MINUS_ONE (shiftOne (bsr n)) + 1)
  else
    let n := (pred - first).toNat
    first + (bbLoopAux mem first value (shiftOne (bsr n)) MINUS_ONE (shiftOne (bsr n)) + 1)

/-- Forward scan instrumented with the list of positions it dereferences. -/
def scanTraceAux (mem : Int → Int) (value : Int) : Int → Nat → Int × List Int
  | cur, 0 => (cur, [])
  | cur, k + 1 =>
    if value ≤ mem cur then (cur, [cur])
    else
      let r := scanTraceAux mem value (cur + 1) k
      (r.1, cur :: r.2)

/-- `LinearSearch::operator()` instrumented with the positions it reads. -/
def LinearSearchReads (mem : Int → Int) (first last _pred value : Int) : Int × List Int :=
  scanTraceAux mem value first (last - first).toNat

/-- `std::lower_bound` instrumented with the positions it dereferences. -/
def lowerBoundTraceAux (mem : Int → Int) (value : Int) : Nat → Int → Nat → Int × List Int
  | 0, first, _ => (first, [])
  | fuel + 1, first, count =>
    if count = 0 then (first, [])
    else
      let step := count / 2
      let r :=
        if mem (first + (step : Int)) < value then
          lowerBoundTraceAux mem value fuel (first + (step : Int) + 1) (count - step - 1)
        else lowerBoundTraceAux mem value fuel first step
      (r.1, (first + (step : Int)) :: r.2)

/-- `BinarySearch::operator()` instrumented with the positions it reads. -/
def BinarySearchReads (mem : Int → Int) (first last _pred value : Int) : Int × List Int :=
  lowerBoundTraceAux mem value (last - first).toNat first (last - first).toNat

/-- Branchless descent loop instrumented with the positions it dereferences. -/
def bbLoopTraceAux (mem : Int → Int) (first value : Int) : Nat → Int → Nat → Int × List Int
  | 0, pos, _ => (pos, [])
  | fuel + 1, pos, step =>
    if 0 < step then
      let r := bbLoopTraceAux mem first value fuel
        (if mem (first + (step : Int)) < value then pos + (step : Int) else pos) (step / 2)
      (r.1, (first + (step : Int)) :: r.2)
    else (pos, [])

/-- `BinarySearch_Branchless::operator()` instrumented with the positions its
descent loop reads. -/
def BinarySearch_BranchlessReads (mem : Int → Int) (first last _pred value : Int) :
    Int × List Int :=
  let n := (last - first).toNat
  let r := bbLoopTraceAux mem first value (shiftOne (bsr n)) MINUS_ONE (shiftOne (bsr n))
  (first + (r.1 + 1), r.2)

/-- The range `[first, last)` is ascending-sorted (non-decreasing). -/
def SortedOn (mem : Int → Int) (first last : Int) : Prop :=
  ∀ i j : Int, first ≤ i → i ≤ j → j < last → mem i ≤ mem j

/-- Modelled from the spec claim wording (C5): scan `[first, last)` downward
from `last - 1`; the first (hence largest) position whose element is less than
`value`. -/
def opllAux (mem : Int → Int) (value : Int) : Int → Nat → Option Int
  | _, 0 => none
  | cur, k + 1 => if mem cur < value then some (cur + 1) else opllAux mem value (cur - 1) k

/-- Modelled from the spec claim wording (C5): one past the last position of
`[first, last)` whose element is less than `value`, or `first` if no element is
less than `value`. -/
def onePastLastLessSpec (mem : Int → Int) (first last value : Int) : Int :=
  (opllAux mem value (last - 1) (last - first).toNat).getD first

/-- Concrete sorted memory `[0, 0, 5]` (positions 0..2). -/
def mem3 : Int → Int := fun i => if i = 2 then 5 else 0

/-- Concrete sorted memory `[0, 0, 0, 0, 0, 9]` (positions 0..5). -/
def mem6 : Int → Int := fun i => if i = 5 then 9 else 0

/-- The spec's concrete scenario `[1, 3, 3, 5, 8, 13, 21]` at positions 0..6;
memory outside the range holds arbitrary junk, universally quantified. -/
def mem7x (junk : Int → Int) : Int → Int := fun i =>
  if i = 0 then 1
  else if i = 1 then 3
  else if i = 2 then 3
  else if i = 3 then 5
  else if i = 4 then 8
  else if i = 5 then 13
  else if i = 6 then 21
  else junk i

/-- The identity memory: position `i` holds value `i` (strictly ascending). -/
def idMem : Int → Int := fun i => i

/-!
State-passing embedding (for the frame claim C8).  The state visible to a
strategy call and outliving it is the caller's array plus the module-level
variable `MINUS_ONE`; each primitive access threads the state explicitly, so a
store would have to show up as a state update.  The source contains only loads
(`*it` reads and the read of `MINUS_ONE`), which is what the two accessors
reflect.
-/

/-- The memory and module state a strategy call can see. -/
structure SearchState where
  mem : Int → Int
  minusOne : Int

/-- Dereference an iterator: a load, leaving the state unchanged. -/
def readMem (st : SearchState) (i : Int) : Int × SearchState := (st.mem i, st)

/-- Read the module-level variable `MINUS_ONE`: a load, leaving the state
unchanged. -/
def readMinusOne (st : SearchState) : Int × SearchState := (st.minusOne, st)

/-- State-passing forward scan (loop of `LinearSearch`). -/
def scanW (value : Int) : SearchState → Int → Nat → Int × SearchState
  | st, cur, 0 => (cur, st)
  | st, cur, k + 1 =>
    let a := readMem st cur
    if value ≤ a.1 then (cur, a.2) else scanW value a.2 (cur + 1) k

/-- State-passing left branch loop of `ModelBiasedLinearSearch`. -/
def mblsLeftW (value first : Int) : SearchState → Int → Nat → Int × SearchState
  | st, _, 0 => (first, st)
  | st, runner, k + 1 =>
    let a := readMem st runner
    if a.1 < value then (runner + 1, a.2) else mblsLeftW value first a.2 (runner - 1) k

/-- State-passing `std::lower_bound`. -/
def lowerBoundW (value : Int) : SearchState → Nat → Int → Nat → Int × SearchState
  | st, 0, first, _ => (first, st)
  | st, fuel + 1, first, count =>
    if count = 0 then (first, st)
    else
      let step := count / 2
      let a := readMem st (first + (step : Int))
      if a.1 < value then lowerBoundW value a.2 fuel (first + (step : Int) + 1) (count - step - 1)
      else lowerBoundW value a.2 fuel first step

/-- State-passing rightward doubling loop of the exponential searches. -/
def expLoopW (last value : Int) : SearchState → Nat → Nat → Int → Int → (Int × Int) × SearchState
  | st, 0, _, prev, curr => ((prev, curr), st)
  | st, fuel + 1, bound, prev, curr =>
    if curr < last then
      let a := readMem st curr
      if a.1 < value then
        expLoopW last value a.2 fuel (bound * 2) curr (curr + ((bound * 2 : Nat) : Int))
      else ((prev, curr), a.2)
    else ((prev, curr), st)

/-- State-passing leftward doubling loop of `ModelBiasedExponentialSearch`. -/
def expLeftLoopW (first value : Int) :
    SearchState → Nat → Nat → Int → Int → (Int × Int) × SearchState
  | st, 0, _, prev, curr => ((prev, curr), st)
  | st, fuel + 1, bound, prev, curr =>
    if first < curr then
      let a := readMem st curr
      if value ≤ a.1 then
        expLeftLoopW first value a.2 fuel (bound * 2) curr (curr - ((bound * 2 : Nat) : Int))
      else ((prev, curr), a.2)
    else ((prev, curr), st)

/-- State-passing lane scan of a SIMD block. -/
def simdMaskFirstW (bv : Int) : SearchState → Int → Nat → Nat → Option Nat × SearchState
  | st, _, _, 0 => (none, st)
  | st, base, j, rem + 1 =>
    let a := readMem st (base + (j : Int))
    if a.1 < bv then (some j, a.2) else simdMaskFirstW bv a.2 base (j + 1) rem

/-- State-passing SIMD block loop. -/
def simdScanW (bv base : Int) (n : Nat) : SearchState → Nat → Nat → Option (Nat × Nat) × SearchState
  | st, 0, _ => (none, st)
  | st, fuel + 1, i =>
    if i < n then
      match simdMaskFirstW bv st (base + (i : Int)) 0 8 with
      | (some j, st1) => (some (i, j), st1)
      | (none, st1) => simdScanW bv base n st1 fuel (i + 8)
    else (none, st)

/-- State-passing branchless descent loop. -/
def bbLoopW (first value : Int) : SearchState → Nat → Int → Nat → Int × SearchState
  | st, 0, pos, _ => (pos, st)
  | st, fuel + 1, pos, step =>
    if 0 < step then
      let a := readMem st (first + (step : Int))
      bbLoopW first value a.2 fuel (if a.1 < value then pos + (step : Int) else pos) (step / 2)
    else (pos, st)

/-- State-passing `LinearSearch::operator()`. -/
def LinearSearchW (st : SearchState) (first last _pred value : Int) : Int × SearchState :=
  scanW value st first (last - first).toNat

/-- State-passing `ModelBiasedLinearSearch::operator()`. -/
def ModelBiasedLinearSearchW (st : SearchState) (first last pred value : Int) :
    Int × SearchState :=
  let a := readMem st pred
  if a.1 < value then scanW value a.2 pred (last - pred).toNat
  else mblsLeftW value first a.2 pred (pred - first + 1).toNat

/-- State-passing `BinarySearch::operator()`. -/
def BinarySearchW (st : SearchState) (first last _pred value : Int) : Int × SearchState :=
  lowerBoundW value st (last - first).toNat first (last - first).toNat

/-- State-passing `ModelBiasedBinarySearch::operator()`. -/
def ModelBiasedBinarySearchW (st : SearchState) (first last pred value : Int) :
    Int × SearchState :=
  let a := readMem st pred
  if a.1 < value then lowerBoundW value a.2 (last - pred).toNat pred (last - pred).toNat
  else lowerBoundW value a.2 (pred - first).toNat first (pred - first).toNat

/-- State-passing `ExponentialSearch::operator()`. -/
def ExponentialSearchW (st : SearchState) (first last _pred value : Int) : Int × SearchState :=
  let a := readMem st first
  if value ≤ a.1 then (first, a.2)
  else
    let b := expLoopW last value a.2 (last - (first + 1)).toNat 1 first (first + 1)
    lowerBoundW value b.2 (min (b.1.2 + 1) last - b.1.1).toNat b.1.1
      (min (b.1.2 + 1) last - b.1.1).toNat

/-- State-passing `ModelBiasedExponentialSearch::operator()`. -/
def ModelBiasedExponentialSearchW (st : SearchState) (first last pred value : Int) :
    Int × SearchState :=
  let a := readMem st pred
  if a.1 < value then
    let b := expLoopW last value a.2 (last - (pred + 1)).toNat 1 pred (pred + 1)
    lowerBoundW value b.2 (min (b.1.2 + 1) last - b.1.1).toNat b.1.1
      (min (b.1.2 + 1) last - b.1.1).toNat
  else
    let b := expLeftLoopW first value a.2 (pred - first).toNat 1 pred (pred - 1)
    lowerBoundW value b.2 (b.1.1 - max first b.1.2).toNat (max first b.1.2)
      (b.1.1 - max first b.1.2).toNat

/-- State-passing `LinearSearch_SIMD::operator()`. -/
def LinearSearch_SIMDW (st : SearchState) (first last _pred value : Int) : Int × SearchState :=
  let n := (last - first).toNat
  match simdScanW (broadcast32to64 value) first n st n 0 with
  | (some (i, j), st1) => (first + (i : Int) + (j : Int), st1)
  | (none, st1) => (last, st1)

/-- State-passing `ModelBiasedLinearSearch_SIMD::operator()`. -/
def ModelBiasedLinearSearch_SIMDW (st : SearchState) (first last pred value : Int) :
    Int × SearchState :=
  let a := readMem st pred
  if a.1 < value then
    let n := (last - pred).toNat
    match simdScanW (broadcast32to64 value) pred n a.2 n 0 with
    | (some (i, j), st1) => (first + (i : Int) + (j : Int), st1)
    | (none, st1) => (last, st1)
  else
    let n := (pred - first).toNat
    match simdScanW (broadcast32to64 value) first n a.2 n 0 with
    | (some (i, j), st1) => (first + (i : Int) + (j : Int), st1)
    | (none, st1) => (last, st1)

/-- State-passing `BinarySearch_Branchless::operator()`; `pos` is initialised
from the module-level `MINUS_ONE`. -/
def BinarySearch_BranchlessW (st : SearchState) (first last _pred value : Int) :
    Int × SearchState :=
  let n := (last - first).toNat
  let a := readMinusOne st
  let b := bbLoopW first value a.2 (shiftOne (bsr n)) a.1 (shiftOne (bsr n))
  (first + (b.1 + 1), b.2)

/-- State-passing `ModelBiasedBinarySearch_Branchless::operator()`. -/
def ModelBiasedBinarySearch_BranchlessW (st : SearchState) (first last pred value : Int) :
    Int × SearchState :=
  let a := readMem st pred
  if a.1 < value then
    let n := (last - pred).toNat
    let b := readMinusOne a.2
    let c := bbLoopW first value b.2 (shiftOne (bsr n)) b.1 (shiftOne (bsr n))
    (first + (c.1 + 1), c.2)
  else
    let n := (pred - first).toNat
    let b := readMinusOne a.2
    let c := bbLoopW first value b.2 (shiftOne (bsr n)) b.1 (shiftOne (bsr n))
    (first + (c.1 + 1), c.2)

/-! Characterisation of the reference forward scan. -/

theorem scanLBAux_bounds (mem : Int → Int) (value : Int) :
    ∀ k (cur : Int), cur ≤ scanLBAux mem value cur k ∧ scanLBAux mem value cur k ≤ cur + (k : Int) := by
  intro k
  induction k with
  | zero => intro cur; simp [scanLBAux]
  | succ k ih =>
    intro cur
    by_cases h : value ≤ mem cur
    · simp [scanLBAux, h]; omega
    · have := ih (cur + 1)
      simp only [scanLBAux, if_neg h]
      push_cast
      omega

theorem scanLBAux_below (mem : Int → Int) (value : Int) :
    ∀ k (cur i : Int), cur ≤ i → i < scanLBAux mem value cur k → mem i < value := by
  intro k
  induction k with
  | zero => intro cur i h1 h2; simp [scanLBAux] at h2; omega
  | succ k ih =>
    intro cur i h1 h2
    by_cases h : value ≤ mem cur
    · simp [scanLBAux, h] at h2; omega
    · simp only [scanLBAux, if_neg h] at h2
      rcases eq_or_lt_of_le h1 with he | hlt
      · subst he; omega
      · exact ih (cur + 1) i (by omega) h2

theorem scanLBAux_hit (mem : Int → Int) (value : Int) :
    ∀ k (cur : Int), scanLBAux mem value cur k < cur + (k : Int) →
      value ≤ mem (scanLBAux mem value cur k) := by
  intro k
  induction k with
  | zero => intro cur h; simp only [scanLBAux] at h; omega
  | succ k ih =>
    intro cur h
    by_cases hv : value ≤ mem cur
    · simp [scanLBAux, hv]
    · simp only [scanLBAux, if_neg hv] at h ⊢
      apply ih (cur + 1)
      push_cast at h ⊢
      omega

theorem scanLBAux_unique (mem : Int → Int) (value : Int) :
    ∀ (k : Nat) (cur p : Int), cur ≤ p → p ≤ cur + (k : Int) →
      (∀ i : Int, cur ≤ i → i < p → mem i < value) →
      (p < cur + (k : Int) → value ≤ mem p) →
      p = scanLBAux mem value cur k := by
  intro k
  induction k with
  | zero => intro cur p h1 h2 _ _; simp [scanLBAux]; omega
  | succ k ih =>
    intro cur p h1 h2 hbelow hhit
    by_cases hv : value ≤ mem cur
    · simp only [scanLBAux, if_pos hv]
      by_contra hne
      have hlt : cur < p := by omega
      exact absurd (hbelow cur le_rfl hlt) (by omega)
    · simp only [scanLBAux, if_neg hv]
      have hne : p ≠ cur := by
        intro he
        subst he
        exact hv (hhit (by push_cast; omega))
      apply ih (cur + 1) p (by omega)
      · push_cast at h2 ⊢; omega
      · intro i hi1 hi2; exact hbelow i (by omega) hi2
      · intro hlt; apply hhit; push_cast at hlt ⊢; omega

/-- The reference scan over `[first, last)` stays inside `[first, last]`. -/
theorem scanLB_bounds (mem : Int → Int) (first last value : Int) (h : first ≤ last) :
    first ≤ scanLB mem first last value ∧ scanLB mem first last value ≤ last := by
  have := scanLBAux_bounds mem value (last - first).toNat first
  unfold scanLB
  omega

/-- Positions of `[first, last)` strictly before the scan result hold elements
below `value`. -/
theorem scanLB_below (mem : Int → Int) (first last value : Int) :
    ∀ i : Int, first ≤ i → i < scanLB mem first last value → mem i < value :=
  fun i h1 h2 => scanLBAux_below mem value (last - first).toNat first i h1 h2

/-- When the scan result is inside `[first, last)`, its element is not below
`value`. -/
theorem scanLB_hit (mem : Int → Int) (first last value : Int) (h : first ≤ last)
    (hlt : scanLB mem first last value < last) :
    value ≤ mem (scanLB mem first last value) := by
  apply scanLBAux_hit mem value (last - first).toNat first
  unfold scanLB at hlt
  omega

/-- Any position with the lower-bound properties over `[first, last)` is the
scan result. -/
theorem scanLB_unique (mem : Int → Int) (first last value p : Int) (h : first ≤ last)
    (h1 : first ≤ p) (h2 : p ≤ last)
    (hbelow : ∀ i : Int, first ≤ i → i < p → mem i < value)
    (hhit : p < last → value ≤ mem p) :
    p = scanLB mem first last value := by
  apply scanLBAux_unique mem value (last - first).toNat first p h1 (by omega) hbelow
  intro hlt
  exact hhit (by omega)

/-! Correctness of the embedded `std::lower_bound` on sorted ranges. -/

theorem lowerBoundAux_eq_scan (mem : Int → Int) (value : Int) :
    ∀ (fuel count : Nat) (first : Int), count ≤ fuel →
      SortedOn mem first (first + (count : Int)) →
      lowerBoundAux mem value fuel first count = scanLBAux mem value first count := by
  intro fuel
  induction fuel with
  | zero =>
    intro count first hc _
    interval_cases count
    simp [lowerBoundAux, scanLBAux]
  | succ fuel ih =>
    intro count first hc hs
    by_cases hc0 : count = 0
    · subst hc0; simp [lowerBoundAux, scanLBAux]
    · have hpos : 0 < count := Nat.pos_of_ne_zero hc0
      have hstep : count / 2 < count := Nat.div_lt_self hpos (by norm_num)
      simp only [lowerBoundAux, if_neg hc0]
      by_cases hv : mem (first + ((count / 2 : Nat) : Int)) < value
      · rw [if_pos hv]
        have hrec :
            lowerBoundAux mem value fuel (first + ((count / 2 : Nat) : Int) + 1)
                (count - count / 2 - 1) =
              scanLBAux mem value (first + ((count / 2 : Nat) : Int) + 1)
                (count - count / 2 - 1) := by
          apply ih _ _ (by omega)
          intro i j hi hij hj
          apply hs i j (by omega) hij
          omega
        rw [hrec]
        set q := scanLBAux mem value (first + ((count / 2 : Nat) : Int) + 1)
          (count - count / 2 - 1) with hq
        have hb := scanLBAux_bounds mem value (count - count / 2 - 1)
          (first + ((count / 2 : Nat) : Int) + 1)
        apply scanLBAux_unique mem value count first q
        · omega
        · omega
        · intro i hi1 hi2
          by_cases hmid : i ≤ first + ((count / 2 : Nat) : Int)
          · calc mem i ≤ mem (first + ((count / 2 : Nat) : Int)) := by
                  apply hs i _ hi1 hmid
                  omega
              _ < value := hv
          · exact scanLBAux_below mem value _ _ i (by omega) hi2
        · intro hlt
          apply scanLBAux_hit mem value (count - count / 2 - 1)
            (first + ((count / 2 : Nat) : Int) + 1)
          omega
      · rw [if_neg hv]
        have hrec : lowerBoundAux mem value fuel first (count / 2) =
            scanLBAux mem value first (count / 2) := by
          apply ih _ _ (by omega)
          intro i j hi hij hj
          apply hs i j hi hij
          omega
        rw [hrec]
        set q := scanLBAux mem value first (count / 2) with hq
        have hb := scanLBAux_bounds mem value (count / 2) first
        apply scanLBAux_unique mem value count first q
        · omega
        · omega
        · intro i hi1 hi2
          exact scanLBAux_below mem value _ _ i hi1 hi2
        · intro hlt
          by_cases hq2 : q < first + ((count / 2 : Nat) : Int)
          · exact scanLBAux_hit mem value (count / 2) first hq2
          · have hqe : q = first + ((count / 2 : Nat) : Int) := by omega
            rw [hqe]
            omega

/-- `std::lower_bound` over a sorted range `[lo, hi)` agrees with the
reference exhaustive scan. -/
theorem stdLowerBound_eq_scanLB (mem : Int → Int) (lo hi value : Int) (h : lo ≤ hi)
    (hs : SortedOn mem lo hi) :
    stdLowerBound mem lo hi value = scanLB mem lo hi value := by
  unfold stdLowerBound scanLB
  apply lowerBoundAux_eq_scan mem value _ _ lo le_rfl
  intro i j hi hij hj
  apply hs i j hi hij
  omega

/-! The leftward scans of `ModelBiasedLinearSearch` and of the spec's
"one past the last smaller element" description. -/

theorem mblsLeftAux_eq_scan (mem : Int → Int) (value first last : Int) :
    ∀ (k : Nat) (runner : Int), (k : Int) = runner - first + 1 → runner < last →
      (∀ i : Int, runner < i → i < last → value ≤ mem i) → SortedOn mem first last →
      mblsLeftAux mem value first runner k = scanLB mem first last value := by
  intro k
  induction k with
  | zero =>
    intro runner hk hrl habove _
    have hfl : first ≤ last := by omega
    simp only [mblsLeftAux]
    apply scanLB_unique mem first last value first hfl le_rfl hfl
    · intro i h1 h2; omega
    · intro hlt; exact habove first (by omega) hlt
  | succ k ih =>
    intro runner hk hrl habove hs
    have hfr : first ≤ runner := by omega
    simp only [mblsLeftAux]
    by_cases hv : mem runner < value
    · rw [if_pos hv]
      apply scanLB_unique mem first last value (runner + 1) (by omega) (by omega) (by omega)
      · intro i h1 h2
        calc mem i ≤ mem runner := hs i runner h1 (by omega) hrl
          _ < value := hv
      · intro hlt; exact habove (runner + 1) (by omega) hlt
    · rw [if_neg hv]
      apply ih (runner - 1) (by omega) (by omega) ?_ hs
      intro i h1 h2
      rcases eq_or_lt_of_le (show runner ≤ i by omega) with he | hgt
      · rw [← he]; omega
      · exact habove i hgt h2

theorem opllAux_eq_scan (mem : Int → Int) (value first last : Int) :
    ∀ (k : Nat) (cur : Int), (k : Int) = cur - first + 1 → cur < last →
      (∀ i : Int, cur < i → i < last → value ≤ mem i) → SortedOn mem first last →
      (opllAux mem value cur k).getD first = scanLB mem first last value := by
  intro k
  induction k with
  | zero =>
    intro cur hk hcl habove _
    have hfl : first ≤ last := by omega
    simp only [opllAux, Option.getD_none]
    apply scanLB_unique mem first last value first hfl le_rfl hfl
    · intro i h1 h2; omega
    · intro hlt; exact habove first (by omega) hlt
  | succ k ih =>
    intro cur hk hcl habove hs
    have hfc : first ≤ cur := by omega
    simp only [opllAux]
    by_cases hv : mem cur < value
    · rw [if_pos hv]
      simp only [Option.getD_some]
      apply scanLB_unique mem first last value (cur + 1) (by omega) (by omega) (by omega)
      · intro i h1 h2
        calc mem i ≤ mem cur := hs i cur h1 (by omega) hcl
          _ < value := hv
      · intro hlt; exact habove (cur + 1) (by omega) hlt
    · rw [if_neg hv]
      apply ih (cur - 1) (by omega) (by omega) ?_ hs
      intro i h1 h2
      rcases eq_or_lt_of_le (show cur ≤ i by omega) with he | hgt
      · rw [← he]; omega
      · exact habove i hgt h2

/-! Invariants of the exponential doubling loop. -/

theorem expLoopAux_spec (mem : Int → Int) (last value first : Int) :
    ∀ (fuel bound : Nat) (prev curr : Int),
      (last - curr).toNat ≤ fuel → 1 ≤ bound → curr = prev + (bound : Int) →
      mem prev < value → first ≤ prev → prev < last →
      (∃ j : Nat, bound = 2 ^ j ∧ prev = first + ((2 ^ j : Nat) : Int) - 1 ∧
        curr = first + ((2 ^ (j + 1) : Nat) : Int) - 1) →
      mem (expLoopAux mem last value fuel bound prev curr).1 < value ∧
      first ≤ (expLoopAux mem last value fuel bound prev curr).1 ∧
      (expLoopAux mem last value fuel bound prev curr).1 < last ∧
      (expLoopAux mem last value fuel bound prev curr).1 <
        (expLoopAux mem last value fuel bound prev curr).2 ∧
      (last ≤ (expLoopAux mem last value fuel bound prev curr).2 ∨
        value ≤ mem (expLoopAux mem last value fuel bound prev curr).2) ∧
      (∃ j : Nat, (expLoopAux mem last value fuel bound prev curr).1 =
          first + ((2 ^ j : Nat) : Int) - 1 ∧
        (expLoopAux mem last value fuel bound prev curr).2 =
          first + ((2 ^ (j + 1) : Nat) : Int) - 1) := by
  intro fuel
  induction fuel with
  | zero =>
    intro bound prev curr hfuel hb hcurr hprev hfp hpl hex
    simp only [expLoopAux]
    obtain ⟨j, _, h1, h2⟩ := hex
    exact ⟨hprev, hfp, hpl, show prev < curr by omega,
      Or.inl (show last ≤ curr by omega), j, h1, h2⟩
  | succ fuel ih =>
    intro bound prev curr hfuel hb hcurr hprev hfp hpl hex
    by_cases hcl : curr < last
    · by_cases hcv : mem curr < value
      · simp only [expLoopAux, if_pos hcl, if_pos hcv]
        apply ih (bound * 2) curr (curr + ((bound * 2 : Nat) : Int))
        · omega
        · omega
        · rfl
        · exact hcv
        · omega
        · exact hcl
        · obtain ⟨j, hbj, _, h2⟩ := hex
          refine ⟨j + 1, by rw [hbj]; ring, h2, ?_⟩
          have hcast : ((2 ^ (j + 1 + 1) : Nat) : Int) = 2 * ((2 ^ (j + 1) : Nat) : Int) := by
            push_cast; ring
          have hcast2 : ((bound * 2 : Nat) : Int) = ((2 ^ (j + 1) : Nat) : Int) := by
            rw [hbj]; push_cast; ring
          rw [hcast, hcast2, h2]; ring
      · simp only [expLoopAux, if_pos hcl, if_neg hcv]
        obtain ⟨j, _, h1, h2⟩ := hex
        exact ⟨hprev, hfp, hpl, show prev < curr by omega,
          Or.inr (le_of_not_lt hcv), j, h1, h2⟩
    · simp only [expLoopAux, if_neg hcl]
      obtain ⟨j, _, h1, h2⟩ := hex
      exact ⟨hprev, hfp, hpl, show prev < curr by omega,
        Or.inl (show last ≤ curr by omega), j, h1, h2⟩

/-! The bit-scan-reverse helper. -/

theorem bsrAux_zero : ∀ (fuel : Nat) (ret : Int), bsrAux fuel 0 ret = ret := by
  intro fuel ret
  cases fuel <;> simp [bsrAux]

theorem bsrAux_pow : ∀ (fuel x : Nat) (ret : Int), x ≤ fuel → 0 < x →
    ∃ k : Nat, bsrAux fuel x ret = ret + 1 + (k : Int) ∧ 2 ^ k ≤ x ∧ x < 2 ^ (k + 1) := by
  intro fuel
  induction fuel with
  | zero => intro x ret hx hp; omega
  | succ fuel ih =>
    intro x ret hx hp
    have hx0 : x ≠ 0 := by omega
    simp only [bsrAux, if_pos hx0]
    by_cases hx1 : x / 2 = 0
    · rw [hx1, bsrAux_zero]
      refine ⟨0, by push_cast; ring, by omega, by omega⟩
    · obtain ⟨k, h1, h2, h3⟩ := ih (x / 2) (ret + 1) (by omega) (by omega)
      refine ⟨k + 1, ?_, ?_, ?_⟩
      · rw [h1]; push_cast; ring
      · calc 2 ^ (k + 1) = 2 * 2 ^ k := by ring
          _ ≤ x := by omega
      · calc x < 2 * 2 ^ (k + 1) := by omega
          _ = 2 ^ (k + 1 + 1) := by ring
    
/-- For positive `x`, `bsr x` is the exponent of the highest set bit. -/
theorem bsr_pos_spec (n : Nat) (hn : 0 < n) :
    ∃ k : Nat, bsr n = (k : Int) ∧ 2 ^ k ≤ n ∧ n < 2 ^ (k + 1) := by
  obtain ⟨k, h1, h2, h3⟩ := bsrAux_pow n n (-1) le_rfl hn
  exact ⟨k, by rw [bsr, h1]; ring, h2, h3⟩

/-! Every state-passing loop returns the pure result and the unchanged state:
the loops perform loads only. -/

theorem scanW_eq (value : Int) :
    ∀ (k : Nat) (st : SearchState) (cur : Int),
      scanW value st cur k = (scanLBAux st.mem value cur k, st) := by
  intro k
  induction k with
  | zero => intro st cur; rfl
  | succ k ih =>
    intro st cur
    by_cases h : value ≤ st.mem cur <;> simp [scanW, readMem, scanLBAux, h, ih]

theorem mblsLeftW_eq (value first : Int) :
    ∀ (k : Nat) (st : SearchState) (runner : Int),
      mblsLeftW value first st runner k = (mblsLeftAux st.mem value first runner k, st) := by
  intro k
  induction k with
  | zero => intro st runner; rfl
  | succ k ih =>
    intro st runner
    by_cases h : st.mem runner < value <;> simp [mblsLeftW, readMem, mblsLeftAux, h, ih]

theorem lowerBoundW_eq (value : Int) :
    ∀ (fuel : Nat) (st : SearchState) (first : Int) (count : Nat),
      lowerBoundW value st fuel first count = (lowerBoundAux st.mem value fuel first count, st) := by
  intro fuel
  induction fuel with
  | zero => intro st first count; rfl
  | succ fuel ih =>
    intro st first count
    by_cases hc : count = 0
    · simp [lowerBoundW, lowerBoundAux, hc]
    · simp only [lowerBoundW, lowerBoundAux, if_neg hc, readMem, ih]
      split <;> rfl

theorem expLoopW_eq (last value : Int) :
    ∀ (fuel : Nat) (st : SearchState) (bound : Nat) (prev curr : Int),
      expLoopW last value st fuel bound prev curr =
        (expLoopAux st.mem last value fuel bound prev curr, st) := by
  intro fuel
  induction fuel with
  | zero => intro st bound prev curr; rfl
  | succ fuel ih =>
    intro st bound prev curr
    by_cases hcl : curr < last
    · by_cases hcv : st.mem curr < value <;> simp [expLoopW, expLoopAux, readMem, hcl, hcv, ih]
    · simp [expLoopW, expLoopAux, readMem, hcl]

theorem expLeftLoopW_eq (first value : Int) :
    ∀ (fuel : Nat) (st : SearchState) (bound : Nat) (prev curr : Int),
      expLeftLoopW first value st fuel bound prev curr =
        (expLeftLoopAux st.mem first value fuel bound prev curr, st) := by
  intro fuel
  induction fuel with
  | zero => intro st bound prev curr; rfl
  | succ fuel ih =>
    intro st bound prev curr
    by_cases hcl : first < curr
    · by_cases hcv : value ≤ st.mem curr <;>
        simp [expLeftLoopW, expLeftLoopAux, readMem, hcl, hcv, ih]
    · simp [expLeftLoopW, expLeftLoopAux, readMem, hcl]

theorem simdMaskFirstW_eq (bv : Int) :
    ∀ (rem : Nat) (st : SearchState) (base : Int) (j : Nat),
      simdMaskFirstW bv st base j rem = (simdMaskFirstAux st.mem bv base j rem, st) := by
  intro rem
  induction rem with
  | zero => intro st base j; rfl
  | succ rem ih =>
    intro st base j
    by_cases h : st.mem (base + (j : Int)) < bv <;>
      simp [simdMaskFirstW, simdMaskFirstAux, readMem, h, ih]

theorem simdScanW_eq (bv base : Int) (n : Nat) :
    ∀ (fuel : Nat) (st : SearchState) (i : Nat),
      simdScanW bv base n st fuel i = (simdScan st.mem bv base n fuel i, st) := by
  intro fuel
  induction fuel with
  | zero => intro st i; rfl
  | succ fuel ih =>
    intro st i
    by_cases hin : i < n
    · simp only [simdScanW, simdScan, if_pos hin, simdMaskFirstW_eq]
      cases h : simdMaskFirstAux st.mem bv (base + (i : Int)) 0 8 <;> simp [h, ih]
    · simp [simdScanW, simdScan, hin]

theorem bbLoopW_eq (first value : Int) :
    ∀ (fuel : Nat) (st : SearchState) (pos : Int) (step : Nat),
      bbLoopW first value st fuel pos step = (bbLoopAux st.mem first value fuel pos step, st) := by
  intro fuel
  induction fuel with
  | zero => intro st pos step; rfl
  | succ fuel ih =>
    intro st pos step
    by_cases h : 0 < step <;> simp [bbLoopW, bbLoopAux, readMem, h, ih]

/-- C1: the spec claims that for every strategy functor, every ascending-sorted
non-empty sequence, every query value and every valid predicted position, the
returned position equals the reference exhaustive linear scan.  The code
violates this: on the sorted memory `[0, 0, 5]` (first two conjuncts attest
sortedness) with query `5`, `BinarySearch_Branchless` returns position 1 while
the reference scan (and `LinearSearch`) returns 2 — its descent probes
`*(first + step)` instead of `*(first + pos + step)`, so `pos` never steers the
probes. -/
theorem C1_branchless_breaks_lower_bound :
    mem3 0 ≤ mem3 1 ∧ mem3 1 ≤ mem3 2 ∧
    BinarySearch_Branchless mem3 0 3 0 5 = 1 ∧
    LinearSearch mem3 0 3 0 5 = 2 ∧ scanLB mem3 0 3 5 = 2 := by decide

/-- C2: the spec claims every element read by the branchless descent lies at an
offset strictly below `n`, in particular when `n` is an exact power of two.
The code violates this: for the range `[0, 4)` (length `n = 4`, a power of two)
the descent of `BinarySearch_Branchless` dereferences positions 4, 2 and 1 —
the very first probe reads `*(first + 4)`, offset `n`, one past the end of the
range (and the returned position, 7, is far outside `[first, last]`). -/
theorem C2_probe_reaches_offset_n :
    (BinarySearch_BranchlessReads idMem 0 4 0 100).2 = [4, 2, 1] ∧
    (4 : Int) ∈ (BinarySearch_BranchlessReads idMem 0 4 0 100).2 ∧
    (BinarySearch_BranchlessReads idMem 0 4 0 100).1 = 7 := by decide

/-- C3: the spec claims that varying the predicted position over all valid
positions never changes the result of a model-biased strategy.  The code
violates this for `ModelBiasedBinarySearch_Branchless`: on the sorted memory
`[0, 0, 0, 0, 0, 9]` (first five conjuncts attest sortedness) with query `9`,
the hint 0 yields position 7 while the hint 4 yields position 3 — the hint
changes `n` and hence which probes `2^k` enter the descent, and the probes are
always based at `first`. -/
theorem C3_hint_changes_result :
    mem6 0 ≤ mem6 1 ∧ mem6 1 ≤ mem6 2 ∧ mem6 2 ≤ mem6 3 ∧ mem6 3 ≤ mem6 4 ∧
    mem6 4 ≤ mem6 5 ∧
    ModelBiasedBinarySearch_Branchless mem6 0 6 0 9 = 7 ∧
    ModelBiasedBinarySearch_Branchless mem6 0 6 4 9 = 3 := by decide

/-- C4: the spec claims `ModelBiasedBinarySearch_Branchless` runs the descent
on the half-range selected by comparing `*pred` with the query (here
`mem6 4 = 0 < 9`, so `[pred, last) = [4, 6)`) and returns the lower bound of
that half-range (here 5).  The code violates this: it returns 3, which is not
even inside `[4, 6)` — only the length `n` comes from the half-range, while
probes and result are based at `first`. -/
theorem C4_descent_not_based_at_half_range :
    mem6 4 < 9 ∧
    ModelBiasedBinarySearch_Branchless mem6 0 6 4 9 = 3 ∧
    scanLB mem6 4 6 9 = 5 := by decide

/-- C10: on an empty range (`first == last`) `LinearSearch` and `BinarySearch`
return `last` and dereference no element, for any predicted position and any
query value. -/
theorem C10_empty_range_no_reads (mem : Int → Int) (first pred value : Int) :
    LinearSearchReads mem first first pred value = (first, []) ∧
    BinarySearchReads mem first first pred value = (first, []) := by
  constructor
  · unfold LinearSearchReads
    rw [show (first - first).toNat = 0 by omega]
    rfl
  · unfold BinarySearchReads
    rw [show (first - first).toNat = 0 by omega]
    rfl

/-- C9: `bsr 0 = -1`; for every positive `x`, `bsr x` is the index of the
highest set bit of `x` (`2 ^ bsr x ≤ x < 2 ^ (bsr x + 1)`), and consequently
the initial step `1 << bsr n` of the branchless searches is the largest power
of two not exceeding `n`. -/
theorem C9_bsr_highest_bit :
    bsr 0 = -1 ∧
    ∀ n : Nat, 0 < n →
      2 ^ (bsr n).toNat ≤ n ∧ n < 2 ^ ((bsr n).toNat + 1) ∧
      shiftOne (bsr n) ≤ n ∧ ∀ m : Nat, 2 ^ m ≤ n → 2 ^ m ≤ shiftOne (bsr n) := by
  refine ⟨rfl, ?_⟩
  intro n hn
  obtain ⟨k, hk, h2, h3⟩ := bsr_pos_spec n hn
  have htk : (bsr n).toNat = k := by rw [hk]; exact Int.toNat_natCast k
  have hsh : shiftOne (bsr n) = 2 ^ k := by
    unfold shiftOne
    rw [if_pos (show (0 : Int) ≤ bsr n by rw [hk]; exact Int.natCast_nonneg k), htk]
  refine ⟨by rw [htk]; exact h2, by rw [htk]; exact h3, by rw [hsh]; exact h2, ?_⟩
  intro m hm
  rw [hsh]
  have hmk : m < k + 1 := by
    by_contra hge
    push_neg at hge
    have := Nat.pow_le_pow_right (show 1 ≤ 2 by norm_num) hge
    omega
  exact Nat.pow_le_pow_right (by norm_num) (by omega)

/-- C9 witness at `n = 6`, `m = 2`: `bsr 6 = 2`, `4 ≤ 6 < 8`, and
`1 << bsr 6 = 4` dominates every power of two that fits below 6. -/
theorem C9_bsr_highest_bit_witness :
    2 ^ (bsr 6).toNat ≤ 6 ∧ 6 < 2 ^ ((bsr 6).toNat + 1) ∧ shiftOne (bsr 6) ≤ 6 ∧
    2 ^ 2 ≤ shiftOne (bsr 6) := by
  obtain ⟨h1, h2, h3, h4⟩ := C9_bsr_highest_bit.2 6 (by norm_num)
  exact ⟨h1, h2, h3, h4 2 (by norm_num)⟩

/-- C7: the spec's concrete scenario claims every strategy returns index 3 on
`[1, 3, 3, 5, 8, 13, 21]` for query 5 and every model-biased strategy returns
index 1 for hint 4, query 3.  The code violates both for the SIMD variants:
whatever junk sits beyond position 6, `LinearSearch_SIMD` returns 0 for query 5
(its lane mask selects elements *below* the query, so lane 0 of the first block
hits) while `LinearSearch` and the reference scan return 3; likewise
`ModelBiasedLinearSearch_SIMD` returns 0 where `ModelBiasedLinearSearch`
returns 1 in the biased scenario. -/
theorem C7_simd_breaks_scenario (junk : Int → Int) :
    LinearSearch_SIMD (mem7x junk) 0 7 0 5 = 0 ∧
    LinearSearch (mem7x junk) 0 7 0 5 = 3 ∧
    scanLB (mem7x junk) 0 7 5 = 3 ∧
    ModelBiasedLinearSearch_SIMD (mem7x junk) 0 7 4 3 = 0 ∧
    ModelBiasedLinearSearch (mem7x junk) 0 7 4 3 = 1 :=
  ⟨rfl, rfl, rfl, rfl, rfl⟩

/-- C5: for every sorted non-empty range and every predicted position in
`[first, last)`, `ModelBiasedLinearSearch` compares the element at the
predicted position with the query: if it is less, it scans rightward and
returns the first position whose element is not less than `value` (or `last`
if none); otherwise it scans leftward and returns one past the last position
whose element is less than `value`, or `first` if no element is less than
`value`. -/
theorem C5_model_biased_linear (mem : Int → Int) (first last pred value : Int)
    (hs : SortedOn mem first last) (h1 : first ≤ pred) (h2 : pred < last) :
    (mem pred < value →
      ModelBiasedLinearSearch mem first last pred value = scanLB mem pred last value ∧
      ModelBiasedLinearSearch mem first last pred value = scanLB mem first last value) ∧
    (value ≤ mem pred →
      ModelBiasedLinearSearch mem first last pred value =
        onePastLastLessSpec mem first last value) := by
  constructor
  · intro hv
    have he1 : ModelBiasedLinearSearch mem first last pred value = scanLB mem pred last value := by
      unfold ModelBiasedLinearSearch scanLB
      rw [if_pos hv]
    refine ⟨he1, ?_⟩
    rw [he1]
    have hb := scanLB_bounds mem pred last value (by omega)
    apply scanLB_unique mem first last value _ (by omega) (by omega) (by omega)
    · intro i hi1 hi2
      by_cases hip : i < pred
      · calc mem i ≤ mem pred := hs i pred hi1 (by omega) h2
          _ < value := hv
      · exact scanLB_below mem pred last value i (by omega) hi2
    · intro hlt
      exact scanLB_hit mem pred last value (by omega) hlt
  · intro hv
    have hnv : ¬mem pred < value := not_lt.mpr hv
    have habove : ∀ i : Int, pred < i → i < last → value ≤ mem i := by
      intro i hi1 hi2
      exact le_trans hv (hs pred i h1 (by omega) hi2)
    have he1 : ModelBiasedLinearSearch mem first last pred value =
        mblsLeftAux mem value first pred (pred - first + 1).toNat := by
      unfold ModelBiasedLinearSearch
      rw [if_neg hnv]
    rw [he1, mblsLeftAux_eq_scan mem value first last (pred - first + 1).toNat pred
      (by omega) h2 habove hs]
    unfold onePastLastLessSpec
    refine (opllAux_eq_scan mem value first last (last - first).toNat (last - 1)
      (by omega) (by omega) ?_ hs).symm
    intro i hi1 hi2
    omega

/-- C5 witness: on the strictly ascending memory `idMem` over `[0, 4)` with
hint 1 and query 2, the right branch fires and agrees with the reference
scan. -/
theorem C5_model_biased_linear_witness :
    ModelBiasedLinearSearch idMem 0 4 1 2 = scanLB idMem 0 4 2 := by
  have h := C5_model_biased_linear idMem 0 4 1 2 (fun i j _ hij _ => hij)
    (by norm_num) (by norm_num)
  exact (h.1 (by norm_num [idMem])).2

/-- C6: on a sorted non-empty range, `ExponentialSearch` returns `first` at
once when the first element is not less than the query; otherwise its doubling
loop probes `first + 1, first + 3, first + 7, …` (positions `first + 2^j - 1`)
until the probe reaches or passes `last` or its element is not less than the
query, then returns `std::lower_bound` over `[prev, min(curr + 1, last))`; and
the overall result always equals the reference scan of `[first, last)`. -/
theorem C6_exponential (mem : Int → Int) (first last pred value : Int)
    (hs : SortedOn mem first last) (hne : first < last) :
    (value ≤ mem first → ExponentialSearch mem first last pred value = first) ∧
    ExponentialSearch mem first last pred value = scanLB mem first last value ∧
    (mem first < value →
      (∃ j : Nat,
        (expLoopAux mem last value (last - (first + 1)).toNat 1 first (first + 1)).1 =
          first + ((2 ^ j : Nat) : Int) - 1 ∧
        (expLoopAux mem last value (last - (first + 1)).toNat 1 first (first + 1)).2 =
          first + ((2 ^ (j + 1) : Nat) : Int) - 1) ∧
      (last ≤ (expLoopAux mem last value (last - (first + 1)).toNat 1 first (first + 1)).2 ∨
        value ≤ mem (expLoopAux mem last value (last - (first + 1)).toNat 1 first (first + 1)).2) ∧
      ExponentialSearch mem first last pred value =
        stdLowerBound mem
          (expLoopAux mem last value (last - (first + 1)).toNat 1 first (first + 1)).1
          (min ((expLoopAux mem last value (last - (first + 1)).toNat 1 first (first + 1)).2 + 1)
            last)
          value) := by
  by_cases hv : value ≤ mem first
  · have he : ExponentialSearch mem first last pred value = first := by
      unfold ExponentialSearch
      rw [if_pos hv]
    refine ⟨fun _ => he, ?_, fun hcon => absurd hv (not_le.mpr hcon)⟩
    rw [he]
    apply scanLB_unique mem first last value first (by omega) le_rfl (by omega)
    · intro i hi1 hi2; omega
    · intro _; exact hv
  · have hv2 : mem first < value := not_le.mp hv
    have hspec := expLoopAux_spec mem last value first (last - (first + 1)).toNat 1 first
      (first + 1) (le_refl _) (le_refl 1) (by push_cast; ring) hv2 le_rfl hne
      ⟨0, by norm_num, by push_cast; ring, by push_cast; ring⟩
    set r := expLoopAux mem last value (last - (first + 1)).toNat 1 first (first + 1) with hr
    obtain ⟨hrv, hfr, hrl, hr12, hexit, hpow⟩ := hspec
    have he : ExponentialSearch mem first last pred value =
        stdLowerBound mem r.1 (min (r.2 + 1) last) value := by
      unfold ExponentialSearch
      rw [if_neg hv]
    have hm : r.1 ≤ min (r.2 + 1) last := by omega
    have hsub : SortedOn mem r.1 (min (r.2 + 1) last) := by
      intro i j hi hij hj
      exact hs i j (by omega) hij (by omega)
    have heq : stdLowerBound mem r.1 (min (r.2 + 1) last) value =
        scanLB mem r.1 (min (r.2 + 1) last) value :=
      stdLowerBound_eq_scanLB mem r.1 (min (r.2 + 1) last) value hm hsub
    have hbs := scanLB_bounds mem r.1 (min (r.2 + 1) last) value hm
    have hfull : scanLB mem r.1 (min (r.2 + 1) last) value = scanLB mem first last value := by
      apply scanLB_unique mem first last value _ (by omega) (by omega) (by omega)
      · intro i hi1 hi2
        by_cases hir : i < r.1
        · calc mem i ≤ mem r.1 := hs i r.1 hi1 (by omega) hrl
            _ < value := hrv
        · exact scanLB_below mem r.1 (min (r.2 + 1) last) value i (by omega) hi2
      · intro hlt
        by_cases hcase : scanLB mem r.1 (min (r.2 + 1) last) value < min (r.2 + 1) last
        · exact scanLB_hit mem r.1 (min (r.2 + 1) last) value hm hcase
        · exfalso
          have hr2l : r.2 < last := by omega
          have hge : value ≤ mem r.2 := by
            rcases hexit with h | h
            · omega
            · exact h
          have hlt2 : mem r.2 < value := by
            apply scanLB_below mem r.1 (min (r.2 + 1) last) value r.2 (by omega) (by omega)
          omega
    exact ⟨fun hcon => absurd hcon hv, by rw [he, heq, hfull], fun _ => ⟨hpow, hexit, he⟩⟩

/-- C6 witness: on the strictly ascending memory `idMem` over `[0, 4)` with
query 2, exponential search agrees with the reference scan. -/
theorem C6_exponential_witness :
    ExponentialSearch idMem 0 4 0 2 = scanLB idMem 0 4 2 :=
  (C6_exponential idMem 0 4 0 2 (fun i j _ hij _ => hij) (by norm_num)).2.1

/-! Strategy-level consequences of the loop lemmas: every state-passing
strategy returns the unchanged state together with the pure result. -/

theorem LinearSearchW_eq (st : SearchState) (first last pred value : Int) :
    LinearSearchW st first last pred value = (LinearSearch st.mem first last pred value, st) := by
  simp [LinearSearchW, LinearSearch, scanW_eq]

theorem ModelBiasedLinearSearchW_eq (st : SearchState) (first last pred value : Int) :
    ModelBiasedLinearSearchW st first last pred value =
      (ModelBiasedLinearSearch st.mem first last pred value, st) := by
  by_cases h : st.mem pred < value <;>
    simp [ModelBiasedLinearSearchW, ModelBiasedLinearSearch, readMem, h, scanW_eq, mblsLeftW_eq]

theorem BinarySearchW_eq (st : SearchState) (first last pred value : Int) :
    BinarySearchW st first last pred value = (BinarySearch st.mem first last pred value, st) := by
  simp [BinarySearchW, BinarySearch, stdLowerBound, lowerBoundW_eq]

theorem ModelBiasedBinarySearchW_eq (st : SearchState) (first last pred value : Int) :
    ModelBiasedBinarySearchW st first last pred value =
      (ModelBiasedBinarySearch st.mem first last pred value, st) := by
  by_cases h : st.mem pred < value <;>
    simp [ModelBiasedBinarySearchW, ModelBiasedBinarySearch, stdLowerBound, readMem, h,
      lowerBoundW_eq]

theorem ExponentialSearchW_eq (st : SearchState) (first last pred value : Int) :
    ExponentialSearchW st first last pred value =
      (ExponentialSearch st.mem first last pred value, st) := by
  by_cases h : value ≤ st.mem first <;>
    simp [ExponentialSearchW, ExponentialSearch, stdLowerBound, readMem, h, expLoopW_eq,
      lowerBoundW_eq]

theorem ModelBiasedExponentialSearchW_eq (st : SearchState) (first last pred value : Int) :
    ModelBiasedExponentialSearchW st first last pred value =
      (ModelBiasedExponentialSearch st.mem first last pred value, st) := by
  by_cases h : st.mem pred < value <;>
    simp [ModelBiasedExponentialSearchW, ModelBiasedExponentialSearch, stdLowerBound, readMem, h,
      expLoopW_eq, expLeftLoopW_eq, lowerBoundW_eq]

theorem LinearSearch_SIMDW_eq (st : SearchState) (first last pred value : Int) :
    LinearSearch_SIMDW st first last pred value =
      (LinearSearch_SIMD st.mem first last pred value, st) := by
  unfold LinearSearch_SIMDW LinearSearch_SIMD
  simp only [simdScanW_eq]
  rcases h : simdScan st.mem (broadcast32to64 value) first (last - first).toNat
      (last - first).toNat 0 with _ | ⟨i, j⟩ <;> simp

theorem ModelBiasedLinearSearch_SIMDW_eq (st : SearchState) (first last pred value : Int) :
    ModelBiasedLinearSearch_SIMDW st first last pred value =
      (ModelBiasedLinearSearch_SIMD st.mem first last pred value, st) := by
  unfold ModelBiasedLinearSearch_SIMDW ModelBiasedLinearSearch_SIMD
  by_cases h : st.mem pred < value
  · simp only [readMem, if_pos h, simdScanW_eq]
    rcases hsc : simdScan st.mem (broadcast32to64 value) pred (last - pred).toNat
        (last - pred).toNat 0 with _ | ⟨i, j⟩ <;> simp
  · simp only [readMem, if_neg h, simdScanW_eq]
    rcases hsc : simdScan st.mem (broadcast32to64 value) first (pred - first).toNat
        (pred - first).toNat 0 with _ | ⟨i, j⟩ <;> simp

theorem BinarySearch_BranchlessW_eq (st : SearchState) (first last pred value : Int) :
    BinarySearch_BranchlessW st first last pred value =
      (first + (bbLoopAux st.mem first value (shiftOne (bsr (last - first).toNat)) st.minusOne
        (shiftOne (bsr (last - first).toNat)) + 1), st) := by
  simp [BinarySearch_BranchlessW, readMinusOne, bbLoopW_eq]

theorem ModelBiasedBinarySearch_BranchlessW_eq (st : SearchState) (first last pred value : Int) :
    ModelBiasedBinarySearch_BranchlessW st first last pred value =
      (if st.mem pred < value then
        first + (bbLoopAux st.mem first value (shiftOne (bsr (last - pred).toNat)) st.minusOne
          (shiftOne (bsr (last - pred).toNat)) + 1)
      else
        first + (bbLoopAux st.mem first value (shiftOne (bsr (pred - first).toNat)) st.minusOne
          (shiftOne (bsr (pred - first).toNat)) + 1), st) := by
  by_cases h : st.mem pred < value <;>
    simp [ModelBiasedBinarySearch_BranchlessW, readMem, readMinusOne, h, bbLoopW_eq]

/-- C8: no strategy call mutates the input sequence or any state that outlives
the call.  In the state-passing embedding — where a store would have to surface
as a changed `SearchState` — every strategy returns the state (array contents
and the module-level `MINUS_ONE`) exactly as received; invoking a strategy a
second time on the state left by a first invocation with equal arguments
returns the same position; and on the module state as initialised
(`MINUS_ONE = -1`) each state-passing strategy computes the corresponding pure
function. -/
theorem C8_no_mutation_and_determinism (st : SearchState) (m : Int → Int)
    (first last pred value : Int) :
    ((LinearSearchW st first last pred value).2 = st ∧
      (ModelBiasedLinearSearchW st first last pred value).2 = st ∧
      (BinarySearchW st first last pred value).2 = st ∧
      (ModelBiasedBinarySearchW st first last pred value).2 = st ∧
      (ExponentialSearchW st first last pred value).2 = st ∧
      (ModelBiasedExponentialSearchW st first last pred value).2 = st ∧
      (LinearSearch_SIMDW st first last pred value).2 = st ∧
      (ModelBiasedLinearSearch_SIMDW st first last pred value).2 = st ∧
      (BinarySearch_BranchlessW st first last pred value).2 = st ∧
      (ModelBiasedBinarySearch_BranchlessW st first last pred value).2 = st) ∧
    ((LinearSearchW (LinearSearchW st first last pred value).2 first last pred value).1 =
        (LinearSearchW st first last pred value).1 ∧
      (ModelBiasedLinearSearchW (ModelBiasedLinearSearchW st first last pred value).2
          first last pred value).1 = (ModelBiasedLinearSearchW st first last pred value).1 ∧
      (BinarySearchW (BinarySearchW st first last pred value).2 first last pred value).1 =
        (BinarySearchW st first last pred value).1 ∧
      (ModelBiasedBinarySearchW (ModelBiasedBinarySearchW st first last pred value).2
          first last pred value).1 = (ModelBiasedBinarySearchW st first last pred value).1 ∧
      (ExponentialSearchW (ExponentialSearchW st first last pred value).2
          first last pred value).1 = (ExponentialSearchW st first last pred value).1 ∧
      (ModelBiasedExponentialSearchW (ModelBiasedExponentialSearchW st first last pred value).2
          first last pred value).1 =
        (ModelBiasedExponentialSearchW st first last pred value).1 ∧
      (LinearSearch_SIMDW (LinearSearch_SIMDW st first last pred value).2
          first last pred value).1 = (LinearSearch_SIMDW st first last pred value).1 ∧
      (ModelBiasedLinearSearch_SIMDW (ModelBiasedLinearSearch_SIMDW st first last pred value).2
          first last pred value).1 =
        (ModelBiasedLinearSearch_SIMDW st first last pred value).1 ∧
      (BinarySearch_BranchlessW (BinarySearch_BranchlessW st first last pred value).2
          first last pred value).1 = (BinarySearch_BranchlessW st first last pred value).1 ∧
      (ModelBiasedBinarySearch_BranchlessW
          (ModelBiasedBinarySearch_BranchlessW st first last pred value).2
          first last pred value).1 =
        (ModelBiasedBinarySearch_BranchlessW st first last pred value).1) ∧
    ((LinearSearchW ⟨m, -1⟩ first last pred value).1 =
        LinearSearch m first last pred value ∧
      (ModelBiasedLinearSearchW ⟨m, -1⟩ first last pred value).1 =
        ModelBiasedLinearSearch m first last pred value ∧
      (BinarySearchW ⟨m, -1⟩ first last pred value).1 =
        BinarySearch m first last pred value ∧
      (ModelBiasedBinarySearchW ⟨m, -1⟩ first last pred value).1 =
        ModelBiasedBinarySearch m first last pred value ∧
      (ExponentialSearchW ⟨m, -1⟩ first last pred value).1 =
        ExponentialSearch m first last pred value ∧
      (ModelBiasedExponentialSearchW ⟨m, -1⟩ first last pred value).1 =
        ModelBiasedExponentialSearch m first last pred value ∧
      (LinearSearch_SIMDW ⟨m, -1⟩ first last pred value).1 =
        LinearSearch_SIMD m first last pred value ∧
      (ModelBiasedLinearSearch_SIMDW ⟨m, -1⟩ first last pred value).1 =
        ModelBiasedLinearSearch_SIMD m first last pred value ∧
      (BinarySearch_BranchlessW ⟨m, -1⟩ first last pred value).1 =
        BinarySearch_Branchless m first last pred value ∧
      (ModelBiasedBinarySearch_BranchlessW ⟨m, -1⟩ first last pred value).1 =
        ModelBiasedBinarySearch_Branchless m first last pred value) := by
  simp only [LinearSearchW_eq, ModelBiasedLinearSearchW_eq, BinarySearchW_eq,
    ModelBiasedBinarySearchW_eq, ExponentialSearchW_eq, ModelBiasedExponentialSearchW_eq,
    LinearSearch_SIMDW_eq, ModelBiasedLinearSearch_SIMDW_eq, BinarySearch_BranchlessW_eq,
    ModelBiasedBinarySearch_BranchlessW_eq]
  simp [BinarySearch_Branchless, ModelBiasedBinarySearch_Branchless, MINUS_ONE]
